import Mathlib

/-!
Verification development for the wasm-explorer repository.

The definitions below are shallow embeddings of the repository's core code:

* `src/components/TreeView.tsx` — `itemsToTree` (containment tree builder),
  `calculateSimilarityScore` and the closest-match search loop;
* `src/module.tsx` — the client-side `Module` proxy (`printRich`,
  `printPlain`, the per-range cache) and the correlation transport
  (`sendMessage` / `waitForResponse`);
* `src/worker.ts` — the worker-side dispatcher over the message protocol of
  `Messages.ts`.

Modelling conventions: JavaScript numbers appearing in scores are modelled as
rationals (`ℚ`); byte offsets and identifiers are `Nat`/`Int`; JavaScript's
`Map`/object tables are association lists; the external parsing engine
(`component-built`, out of scope per the spec) is an abstract structure of
fallible operations; strings are treated as their character lists, and
`toLowerCase` as `Char.toLower` on each character (faithful on the ASCII
inputs these functions receive).
-/

namespace WasmExplorer

/-- Byte range `{start, end}` from the module interface. The `end` field is
named `stop` because `end` is a Lean keyword; it is the same half-open upper
bound as in the source. -/
structure Rng where
  start : Nat
  stop : Nat
deriving Repr, DecidableEq

/-- An item of a module: `{ rawName, displayName, range }` as in the
`component-built` interface consumed by `TreeView.tsx`. -/
structure Item where
  rawName : String
  displayName : String
  range : Rng
deriving Repr, DecidableEq

/-- The fields of an `ItemTree` node other than its children: used to speak
about pre-order traversals without comparing whole subtrees. -/
structure NodeVal where
  rawName : String
  displayName : String
  range : Rng
  index : Int
deriving Repr, DecidableEq

/-- The `ItemTree` interface of `TreeView.tsx`:
`{ rawName, displayName, range, index, children }`, where `index` is the
position in the original item sequence and `-1` for the synthetic root. -/
inductive ItemTree where
  | mk (rawName displayName : String) (range : Rng) (index : Int)
      (children : List ItemTree)
deriving Repr

/-- Children of a tree node. -/
def ItemTree.children : ItemTree → List ItemTree
  | .mk _ _ _ _ cs => cs

/-- The range of a tree node. -/
def ItemTree.range : ItemTree → Rng
  | .mk _ _ r _ _ => r

/-- The item-sequence index of a tree node (`-1` for the synthetic root). -/
def ItemTree.index : ItemTree → Int
  | .mk _ _ _ i _ => i

/-- The non-children fields of a tree node. -/
def ItemTree.val : ItemTree → NodeVal
  | .mk rn dn r i _ => ⟨rn, dn, r, i⟩

/-- The containment test of `itemsToTree`:
`item.range.start >= parent.range.start && item.range.end <= parent.range.end`. -/
def containsR (parent child : Rng) : Bool :=
  child.start ≥ parent.start && child.stop ≤ parent.stop

/-- Append a completed child to a node's children list. In the imperative
source a node is pushed into `parent.children` on arrival and then mutated in
place while it sits on the stack; the functional model instead attaches each
node to its parent once its own children are complete, which yields the same
final tree. -/
def attachChild : ItemTree → ItemTree → ItemTree
  | .mk rn dn r i cs, c => .mk rn dn r i (cs ++ [c])

/-- The pop loop of `itemsToTree`: with the stack held as
(top, rest-of-stack down to the root), pop while the stack has more than one
entry and the top's range does not contain the incoming item's range. A
popped node is folded into the node below it (its final parent). -/
def popLoop (r : Rng) : ItemTree → List ItemTree → ItemTree × List ItemTree
  | t, [] => (t, [])
  | t, p :: rest =>
    if containsR t.range r then (t, p :: rest) else popLoop r (attachChild p t) rest

/-- Processing of one item in `itemsToTree`: run the pop loop, then attach
the new node to the resulting top of stack, pushing it as a potential parent
exactly when its range is non-empty (`end > start`). -/
def stepItem (it : Item) (idx : Nat) : ItemTree × List ItemTree → ItemTree × List ItemTree
  | (top, rest) =>
    let pr := popLoop it.range top rest
    let node : ItemTree := .mk it.rawName it.displayName it.range (idx : Int) []
    if it.range.stop > it.range.start then (node, pr.1 :: pr.2)
    else (attachChild pr.1 node, pr.2)

/-- The `items.forEach` loop of `itemsToTree`, carrying the running index. -/
def runItems : ItemTree × List ItemTree → List Item → Nat → ItemTree × List ItemTree
  | st, [], _ => st
  | st, it :: its, idx => runItems (stepItem it idx st) its (idx + 1)

/-- Collapse the remaining stack at the end of the loop, folding each entry
into the node below it; the bottom entry is the synthetic root. -/
def collapseAll : ItemTree → List ItemTree → ItemTree
  | t, [] => t
  | t, p :: rest => collapseAll (attachChild p t) rest

/-- The synthetic root for a non-empty item list: range
`{ start: 0, end: items[items.length - 1]?.range.end || 0 }`, index `-1`. -/
def rootFor (items : List Item) : ItemTree :=
  .mk "root" "root" ⟨0, ((items.getLast?).map (fun it => it.range.stop)).getD 0⟩ (-1) []

/-- `itemsToTree` from `TreeView.tsx`: an empty item list yields a bare root
with range `[0,0]`; otherwise the stack algorithm runs over the items. -/
def itemsToTree (items : List Item) : ItemTree :=
  if items.isEmpty then .mk "root" "root" ⟨0, 0⟩ (-1) []
  else
    let st := runItems (rootFor items, []) items 0
    collapseAll st.1 st.2

/-- The non-children fields of the synthetic root produced for `items`. -/
def rootVal (items : List Item) : NodeVal :=
  ⟨"root", "root", ⟨0, ((items.getLast?).map (fun it => it.range.stop)).getD 0⟩, -1⟩

mutual

/-- Pre-order traversal of a tree, listing the `NodeVal` of every node. -/
def preV : ItemTree → List NodeVal
  | .mk rn dn r i cs => ⟨rn, dn, r, i⟩ :: preVL cs

/-- Pre-order traversal of a forest, listing the `NodeVal` of every node. -/
def preVL : List ItemTree → List NodeVal
  | [] => []
  | c :: cs => preV c ++ preVL cs

end

mutual

/-- Pre-order list of all subtrees of a tree. -/
def preS : ItemTree → List ItemTree
  | .mk rn dn r i cs => .mk rn dn r i cs :: preSL cs

/-- Pre-order list of all subtrees of a forest. -/
def preSL : List ItemTree → List ItemTree
  | [] => []
  | c :: cs => preS c ++ preSL cs

end

mutual

/-- `containedB t` holds when every node in `t`'s subtree, including the
children of `t` itself, has a range contained in its parent's range. -/
def containedB : ItemTree → Bool
  | .mk _ _ r _ cs => containedL r cs

/-- Containment of a forest under a parent range, recursively. -/
def containedL : Rng → List ItemTree → Bool
  | _, [] => true
  | r, c :: cs => (containsR r c.range && containedB c) && containedL r cs

end

/-- Every tree of a forest satisfies `containedB` (the forest's own roots are
not constrained against any outer range). -/
def allContainedL : List ItemTree → Bool
  | [] => true
  | c :: cs => containedB c && allContainedL cs

/-- Indices of consecutive siblings are strictly increasing. -/
def idxChainB : List ItemTree → Bool
  | [] => true
  | [_] => true
  | a :: b :: rest => (a.index < b.index) && idxChainB (b :: rest)

mutual

/-- Every node of the tree lists its children in strictly increasing index
order. -/
def sibOkB : ItemTree → Bool
  | .mk _ _ _ _ cs => idxChainB cs && sibOkL cs

/-- `sibOkB` for every tree of a forest. -/
def sibOkL : List ItemTree → Bool
  | [] => true
  | c :: cs => sibOkB c && sibOkL cs

end

/-- The `NodeVal`s of the leaf nodes created for `items`, starting at item
index `idx`: the node built for each item before any children are attached. -/
def leafVals : List Item → Nat → List NodeVal
  | [], _ => []
  | it :: its, idx => ⟨it.rawName, it.displayName, it.range, (idx : Int)⟩ :: leafVals its (idx + 1)

/-- One item strictly contains another when their ranges are nested and
distinct. -/
def strictlyContains (outer inner : Rng) : Bool :=
  containsR outer inner && decide (outer ≠ inner)

/-- The ordering precondition of the spec: no item appears before an
ancestor that contains it, i.e. no later item strictly contains an earlier
one. -/
def orderedPreconditionB : List Item → Bool
  | [] => true
  | it :: its =>
    its.all (fun later => !(strictlyContains later.range it.range)) && orderedPreconditionB its

/-- Lowercasing of a string as a character list, modelling
`String.prototype.toLowerCase` (faithful on ASCII input). -/
def lowerL (s : String) : List Char := s.data.map Char.toLower

/-- Value of a hexadecimal digit, or `none` for any other character. -/
def hexDigitVal? (c : Char) : Option Nat :=
  if '0' ≤ c ∧ c ≤ '9' then some (c.toNat - '0'.toNat)
  else if 'a' ≤ c ∧ c ≤ 'f' then some (c.toNat - 'a'.toNat + 10)
  else if 'A' ≤ c ∧ c ≤ 'F' then some (c.toNat - 'A'.toNat + 10)
  else none

/-- Common JavaScript whitespace characters, as skipped by `parseInt` and
removed by `String.prototype.trim`. -/
def isJsSpace (c : Char) : Bool :=
  c = ' ' || c = '\t' || c = '\n' || c = '\r' || c = '\x0b' || c = '\x0c'

/-- Model of JavaScript `parseInt(s, 16)`: skip leading whitespace, accept an
optional sign and an optional `0x`/`0X`, then read the longest run of
hexadecimal digits; `none` models `NaN` (no digits consumed). -/
def jsParseIntHex (s : List Char) : Option Int :=
  let s1 := s.dropWhile isJsSpace
  let sp : Int × List Char :=
    match s1 with
    | '-' :: t => (-1, t)
    | '+' :: t => (1, t)
    | t => (1, t)
  let s3 : List Char :=
    match sp.2 with
    | '0' :: 'x' :: t => t
    | '0' :: 'X' :: t => t
    | t => t
  let digits := s3.takeWhile (fun c => (hexDigitVal? c).isSome)
  if digits.isEmpty then none
  else some (sp.1 * (digits.foldl (fun acc c => acc * 16 + ((hexDigitVal? c).getD 0)) 0 : Nat))

/-- `leadsWith pat s` holds when `s` begins with `pat`, modelling
`String.prototype.startsWith`. -/
def leadsWith : List Char → List Char → Bool
  | [], _ => true
  | _ :: _, [] => false
  | a :: as, b :: bs => a = b && leadsWith as bs

/-- The anchored `replace(/^0x/, "")` of `calculateSimilarityScore`. -/
def drop0xOnce : List Char → List Char
  | '0' :: 'x' :: t => t
  | t => t

/-- `infixOf needle hay` models `String.prototype.includes`. -/
def infixOf (needle hay : List Char) : Bool :=
  leadsWith needle hay ||
    (match hay with
     | [] => false
     | _ :: t => infixOf needle t)

/-- The character-overlap part of `calculateSimilarityScore` (its lines 39-52,
operating on the already-lowercased strings): count of name characters present
in the query divided by the longer length, with the substring boost
`queryLength / nameLength` capped at 1. -/
def nameOverlapScore (queryLower nameLower : List Char) : ℚ :=
  let commonChars := (nameLower.filter (fun c => queryLower.contains c)).length
  let maxLength := max nameLower.length queryLower.length
  let score : ℚ := (commonChars : ℚ) / (maxLength : ℚ)
  if infixOf queryLower nameLower then
    min (score + (queryLower.length : ℚ) / (nameLower.length : ℚ)) 1
  else score

/-- `calculateSimilarityScore` from `TreeView.tsx`: when the lowercased query
begins with `0x`, a range is supplied, and the remainder parses with
`parseInt(·, 16)`, the function returns the offset score (`0` when the parsed
value is out of range) without consulting the name; otherwise it falls through
to the character-overlap score. -/
def calculateSimilarityScore (query itemName : String) (itemRange : Option Rng) : ℚ :=
  let queryLower := lowerL query
  let nameLower := lowerL itemName
  if leadsWith ['0', 'x'] queryLower && itemRange.isSome then
    match jsParseIntHex (drop0xOnce queryLower), itemRange with
    | some hexValue, some r =>
      if hexValue ≥ (r.start : Int) ∧ hexValue ≤ (r.stop : Int) then
        max ((1 : ℚ)/2) (1 - ((r.stop : ℚ) - (r.start : ℚ)) / 1000000)
      else 0
    | _, _ => nameOverlapScore queryLower nameLower
  else nameOverlapScore queryLower nameLower

/-- The closest-match fold of `TreeView.tsx` (its `closestMatchIndex` memo):
a running best match over `(item, index)` pairs, scoring `displayName` and,
when different, `rawName`, with minimum threshold `0.3`. -/
def searchLoop (query : String) : List Item → Nat → Int × ℚ → Int × ℚ
  | [], _, acc => acc
  | it :: its, idx, acc =>
    let score1 := calculateSimilarityScore query it.displayName (some it.range)
    let acc1 := if score1 > acc.2 ∧ score1 ≥ 3/10 then ((idx : Int), score1) else acc
    let acc2 :=
      if it.displayName ≠ it.rawName then
        let score2 := calculateSimilarityScore query it.rawName (some it.range)
        if score2 > acc1.2 ∧ score2 ≥ 3/10 then ((idx : Int), score2) else acc1
      else acc1
    searchLoop query its (idx + 1) acc2

/-- `closestMatchIndex` from `TreeView.tsx`: `-1` for a blank (all-whitespace)
search text, otherwise the index of the best-scoring item at or above the
threshold, `-1` when none qualifies. -/
def closestMatchIndex (searchText : String) (items : List Item) : Int :=
  if ((searchText.data.dropWhile isJsSpace).reverse.dropWhile isJsSpace).isEmpty then -1
  else (searchLoop (String.mk (searchText.data.map Char.toLower)) items 0 (-1, 0)).1

/-- Written from the spec's words for comparison with the code: the
offset-match score — parse the query as hexadecimal with or without a `0x`
prefix; if it parses and falls within the range the score is
`max(0.5, 1 - rangeSize/1_000_000)`, otherwise `0`. -/
def offsetScoreSpec (query : String) (r : Rng) : ℚ :=
  match jsParseIntHex (lowerL query) with
  | some v =>
    if v ≥ (r.start : Int) ∧ v ≤ (r.stop : Int) then
      max ((1 : ℚ)/2) (1 - ((r.stop : ℚ) - (r.start : ℚ)) / 1000000)
    else 0
  | none => 0

/-- Written from the spec's words for comparison with the code: the
name-match score as the spec states it — count of query characters present in
the name divided by the longer string's length, boosted by
`queryLength/nameLength` on substring containment, capped at 1. -/
def nameScoreClaimed (query itemName : String) : ℚ :=
  let ql := lowerL query
  let nl := lowerL itemName
  let commonChars := (ql.filter (fun c => nl.contains c)).length
  let maxLength := max nl.length ql.length
  let score : ℚ := (commonChars : ℚ) / (maxLength : ℚ)
  if infixOf ql nl then
    min (score + (ql.length : ℚ) / (nl.length : ℚ)) 1
  else score

/-- Written from the spec's words for comparison with the code: the combined
score as the maximum of the offset-match and name-match modes. -/
def combinedScoreSpec (query itemName : String) (r : Rng) : ℚ :=
  max (offsetScoreSpec query r) (nameScoreClaimed query itemName)

/-- Written from the amended wording of the name-match score: count of *name*
characters present in the query divided by the longer string's length, with
the same substring boost and cap. -/
def nameScoreAmendedSpec (query itemName : String) : ℚ :=
  let ql := lowerL query
  let nl := lowerL itemName
  let commonChars := (nl.filter (fun c => ql.contains c)).length
  let maxLength := max nl.length ql.length
  let score : ℚ := (commonChars : ℚ) / (maxLength : ℚ)
  if infixOf ql nl then
    min (score + (ql.length : ℚ) / (nl.length : ℚ)) 1
  else score

/-- Worker-side error payload: either the `TypeError` raised by invoking a
method on `undefined` (absent module id), or an error thrown by the external
engine, abstracted by a numeric payload. -/
inductive WErr where
  | typeErrorUndefined
  | engineErr (payload : Nat)
deriving Repr, DecidableEq

/-- `PrintPart` of the external interface (spec section 6): a tagged union of
text, newline markers, span openers and `reset`. Its structure is opaque to
the protocol; the `ty` constructor stands for the interface's `type` tag. -/
inductive PrintPart where
  | str (text : String)
  | newLine (byteOffset : Nat)
  | spanName
  | spanLiteral
  | spanKeyword
  | ty
  | spanComment
  | reset
deriving Repr, DecidableEq

/-- `MessageToWorker` from `Messages.ts` (the `GetSource` kind appears in the
variants used by `module.tsx` and `worker.ts`). -/
inductive MessageToWorker where
  | construct (id : Nat) (source : List Nat)
  | destroy (id : Nat) (moduleId : Nat)
  | getSource (id : Nat) (moduleId : Nat)
  | printRich (id : Nat) (moduleId : Nat) (range : Rng)
  | printPlain (id : Nat) (moduleId : Nat) (range : Rng)
deriving Repr, DecidableEq

/-- The correlation id of an outbound message. -/
def MessageToWorker.msgId : MessageToWorker → Nat
  | .construct i _ => i
  | .destroy i _ => i
  | .getSource i _ => i
  | .printRich i _ _ => i
  | .printPlain i _ _ => i

/-- `MessageFromWorker` from `Messages.ts`. -/
inductive MessageFromWorker where
  | loaded (id : Nat)
  | exception (id : Nat) (exc : WErr)
  | construct (id : Nat) (moduleId : Nat) (items : List Item) (validateError : Option String)
  | destroy (id : Nat)
  | getSource (id : Nat) (source : List Nat)
  | printRich (id : Nat) (result : List PrintPart)
  | printPlain (id : Nat) (result : String)
deriving Repr, DecidableEq

/-- The correlation id of an inbound message. -/
def MessageFromWorker.msgId : MessageFromWorker → Nat
  | .loaded i => i
  | .exception i _ => i
  | .construct i _ _ _ => i
  | .destroy i => i
  | .getSource i _ => i
  | .printRich i _ => i
  | .printPlain i _ => i

/-- Whether an inbound message is the `Exception` kind. -/
def MessageFromWorker.isException : MessageFromWorker → Bool
  | .exception _ _ => true
  | _ => false

/-- How the pending completion of `waitForResponse` was settled: `resolved`
with the matching message, or `rejected` by an `Exception` message. -/
inductive Outcome where
  | resolved (m : MessageFromWorker)
  | rejected (m : MessageFromWorker)
deriving Repr, DecidableEq

/-- The inbound message that settled a completion. -/
def Outcome.message : Outcome → MessageFromWorker
  | .resolved m => m
  | .rejected m => m

/-- One delivery to the listener installed by `waitForResponse id`: a message
with a different id is ignored (`return` before settling); a matching message
settles the completion, rejecting on the `Exception` kind and resolving
otherwise. -/
def settleOf (i : Nat) (m : MessageFromWorker) : Option Outcome :=
  if m.msgId = i then some (if m.isException then .rejected m else .resolved m) else none

/-- Delivery of a whole arrival sequence to the listener of
`waitForResponse i`: after the completion settles the listener is removed
(`removeEventListener`), so all later messages are ignored. -/
def runListener (i : Nat) : Option Outcome → List MessageFromWorker → Option Outcome
  | st, [] => st
  | some o, _ :: _ => some o
  | none, m :: rest => runListener i (settleOf i m) rest

/-- Number of resolve/reject events the listener of `waitForResponse i`
performs over an arrival sequence. -/
def settleEvents (i : Nat) : Option Outcome → List MessageFromWorker → Nat
  | _, [] => 0
  | some _, _ :: _ => 0
  | none, m :: rest => (if (settleOf i m).isSome then 1 else 0) + settleEvents i (settleOf i m) rest

/-- `FirstMessageId` from `Messages.ts`; id 0 is the reserved `Loaded`
handshake. -/
def FirstMessageId : Nat := 1

/-- The id `nextMessageId++` hands to the k-th request sent over the
transport. -/
def allocatedId (k : Nat) : Nat := FirstMessageId + k

/-- Client-side failure of a `Module` operation: the worker's `Exception`
payload re-thrown by the transport, or the defensive
`"unexpected response kind"` error. -/
inductive ClientErr where
  | remote (exc : WErr)
  | protocolErr
deriving Repr, DecidableEq

/-- Client-side state touched by `Module.printRich`/`printPlain`: the
`nextMessageId` counter and the handle's `printRichCache`, modelled as an
association list (newest binding first). -/
structure ClientState where
  nextMessageId : Nat
  printRichCache : List (String × List PrintPart)
deriving Repr, DecidableEq

/-- `Module.getCacheKey`: the canonical key `"${start}-${end}"`. -/
def getCacheKey (r : Rng) : String := toString r.start ++ "-" ++ toString r.stop

/-- `Map.prototype.get` over the association-list model of the cache. -/
def cacheGet : List (String × List PrintPart) → String → Option (List PrintPart)
  | [], _ => none
  | (k, v) :: rest, key => if k = key then some v else cacheGet rest key

/-- `Module.printRich` against a deterministic response oracle standing for
the settled transport round trip. Returns the call's result, the client state
afterwards, and how many messages were posted (0 on a cache hit, 1 otherwise).
The cache is written only on a response of the `PrintRich` kind. -/
def printRichCall (oracle : MessageToWorker → MessageFromWorker) (moduleId : Nat)
    (st : ClientState) (range : Rng) : Except ClientErr (List PrintPart) × ClientState × Nat :=
  let cacheKey := getCacheKey range
  match cacheGet st.printRichCache cacheKey with
  | some cached => (.ok cached, st, 0)
  | none =>
    let mid := st.nextMessageId
    let st1 : ClientState := { st with nextMessageId := mid + 1 }
    match oracle (.printRich mid moduleId range) with
    | .exception _ e => (.error (.remote e), st1, 1)
    | .printRich _ result =>
      (.ok result, { st1 with printRichCache := (cacheKey, result) :: st1.printRichCache }, 1)
    | _ => (.error .protocolErr, st1, 1)

/-- `Module.printPlain` against the same oracle: it posts its request
unconditionally and neither reads nor writes the cache. -/
def printPlainCall (oracle : MessageToWorker → MessageFromWorker) (moduleId : Nat)
    (st : ClientState) (range : Rng) : Except ClientErr String × ClientState × Nat :=
  let mid := st.nextMessageId
  let st1 : ClientState := { st with nextMessageId := mid + 1 }
  match oracle (.printPlain mid moduleId range) with
  | .exception _ e => (.error (.remote e), st1, 1)
  | .printPlain _ result => (.ok result, st1, 1)
  | _ => (.error .protocolErr, st1, 1)

/-- The external parsing engine as the worker sees it: every operation may
throw (model: `Except`), matching the `try`/`catch` at the dispatch boundary. -/
structure Engine (M : Type) where
  construct : List Nat → Except WErr M
  validate : M → Except WErr (Option String)
  items : M → Except WErr (List Item)
  source : M → Except WErr (List Nat)
  printRich : M → Rng → Except WErr (List PrintPart)
  printPlain : M → Rng → Except WErr String

/-- The worker's mutable state: the `nextModuleId` counter and the
`modules` table. -/
structure WorkerState (M : Type) where
  nextModuleId : Nat
  modules : List (Nat × M)

/-- Lookup in the worker's module table (`modules[id]`, `undefined` as
`none`). -/
def tableGet {M : Type} : List (Nat × M) → Nat → Option M
  | [], _ => none
  | (k, v) :: rest, key => if k = key then some v else tableGet rest key

/-- `delete modules[id]`. -/
def tableRemove {M : Type} (tbl : List (Nat × M)) (key : Nat) : List (Nat × M) :=
  tbl.filter (fun kv => kv.1 ≠ key)

/-- The worker's message handler from `worker.ts`. Mutations performed before
an engine throw persist (the JS `catch` does not roll back state); a lookup of
an absent module id leads to a method call on `undefined`, whose `TypeError`
is caught by the same `catch` and answered as an `Exception` response carrying
the incoming request's id. -/
def handleMessage {M : Type} (eng : Engine M) (s : WorkerState M) (m : MessageToWorker) :
    WorkerState M × MessageFromWorker :=
  match m with
  | .construct reqId src =>
    let moduleId := s.nextModuleId
    let s1 : WorkerState M := { s with nextModuleId := moduleId + 1 }
    match eng.construct src with
    | .error e => (s1, .exception reqId e)
    | .ok result =>
      let s2 : WorkerState M := { s1 with modules := (moduleId, result) :: s1.modules }
      match eng.validate result with
      | .error e => (s2, .exception reqId e)
      | .ok (some ve) => (s2, .construct reqId moduleId [] (some ve))
      | .ok none =>
        match eng.items result with
        | .error e => (s2, .exception reqId e)
        | .ok its => (s2, .construct reqId moduleId its none)
  | .destroy reqId moduleId =>
    ({ s with modules := tableRemove s.modules moduleId }, .destroy reqId)
  | .getSource reqId moduleId =>
    match tableGet s.modules moduleId with
    | none => (s, .exception reqId .typeErrorUndefined)
    | some result =>
      match eng.source result with
      | .error e => (s, .exception reqId e)
      | .ok src => (s, .getSource reqId src)
  | .printRich reqId moduleId range =>
    match tableGet s.modules moduleId with
    | none => (s, .exception reqId .typeErrorUndefined)
    | some result =>
      match eng.printRich result range with
      | .error e => (s, .exception reqId e)
      | .ok parts => (s, .printRich reqId parts)
  | .printPlain reqId moduleId range =>
    match tableGet s.modules moduleId with
    | none => (s, .exception reqId .typeErrorUndefined)
    | some result =>
      match eng.printPlain result range with
      | .error e => (s, .exception reqId e)
      | .ok text => (s, .printPlain reqId text)

/-- Sequential processing of a batch of requests by the worker, in arrival
order, collecting the responses. -/
def processMessages {M : Type} (eng : Engine M) :
    WorkerState M → List MessageToWorker → WorkerState M × List MessageFromWorker
  | s, [] => (s, [])
  | s, m :: rest =>
    let sr := handleMessage eng s m
    let tail := processMessages eng sr.1 rest
    (tail.1, sr.2 :: tail.2)

/-- Invariant of the tree builder's stack, held as (top, rest down to the
root): every stack entry's subtree already satisfies `containedB`, each entry
except the bottom one is contained in the range of the entry below it, and for
the bottom entry (the synthetic root) only its subtree-children are
constrained, not the root's own range. -/
def stackOkB : ItemTree → List ItemTree → Bool
  | t, [] => allContainedL t.children
  | t, p :: rest =>
    containedB t && (rest.isEmpty || containsR p.range t.range) && stackOkB p rest

/-- Two disjoint items in an order satisfying the ordering precondition; the
root's range, taken from the last item, does not cover the first item. -/
def exC4 : List Item := [⟨"a", "a", ⟨5, 10⟩⟩, ⟨"b", "b", ⟨0, 3⟩⟩]

/-- A nested item sequence: a module spanning `[0,12]` containing two
functions and a trailing sibling. -/
def exNest : List Item :=
  [⟨"m", "m", ⟨0, 12⟩⟩, ⟨"f", "f", ⟨0, 3⟩⟩, ⟨"g", "g", ⟨3, 7⟩⟩, ⟨"h", "h", ⟨10, 12⟩⟩]

/-- A two-item nested sequence used to instantiate node-count facts. -/
def exC10 : List Item := [⟨"a", "a", ⟨0, 4⟩⟩, ⟨"b", "b", ⟨1, 2⟩⟩]

/-- The spec's search example: two items with ranges `[0,5]` and `[5,20]`. -/
def exSearch : List Item := [⟨"a", "a", ⟨0, 5⟩⟩, ⟨"b", "b", ⟨5, 20⟩⟩]

/-- A response oracle whose worker always throws: every request is answered
by an `Exception` carrying the request's id. -/
def oracleAlwaysThrows : MessageToWorker → MessageFromWorker :=
  fun m => .exception m.msgId (.engineErr 0)

/-- A response oracle answering every `PrintRich` request with an empty part
list and every `PrintPlain` request with `"x"`. -/
def oracleRichOk : MessageToWorker → MessageFromWorker :=
  fun m =>
    match m with
    | .printRich i _ _ => .printRich i []
    | .printPlain i _ _ => .printPlain i "x"
    | other => .exception other.msgId (.engineErr 1)

/-- A client state whose cache already holds an entry for the range `[1,5]`,
as left behind by a successful `printRich` for that range. -/
def stCached : ClientState := ⟨2, [(getCacheKey ⟨1, 5⟩, [PrintPart.reset])]⟩

/-- A trivial engine over the unit module representation, every operation
succeeding. -/
def unitEngine : Engine Unit :=
  ⟨fun _ => .ok (), fun _ => .ok none, fun _ => .ok [], fun _ => .ok [],
   fun _ _ => .ok [], fun _ _ => .ok ""⟩

/-- A worker state holding one live module with id 0. -/
def unitWorkerState : WorkerState Unit := ⟨1, [(0, ())]⟩

theorem settleOf_msgId {i : Nat} {m : MessageFromWorker} {o : Outcome}
    (h : settleOf i m = some o) : o.message.msgId = i := by
  unfold settleOf at h
  by_cases hm : m.msgId = i
  · rw [if_pos hm] at h
    cases hb : m.isException <;> rw [hb] at h <;>
      simpa [Outcome.message, ← Option.some.inj h] using hm
  · rw [if_neg hm] at h
    cases h

theorem settleEvents_settled (i : Nat) (o : Outcome) (msgs : List MessageFromWorker) :
    settleEvents i (some o) msgs = 0 := by
  cases msgs <;> rfl

theorem runListener_settled (i : Nat) (o : Outcome) (msgs : List MessageFromWorker) :
    runListener i (some o) msgs = some o := by
  cases msgs <;> rfl

theorem settleEvents_le_one (i : Nat) :
    ∀ msgs : List MessageFromWorker, settleEvents i none msgs ≤ 1 := by
  intro msgs
  induction msgs with
  | nil => simp [settleEvents]
  | cons m rest ih =>
    show (if (settleOf i m).isSome then 1 else 0) + settleEvents i (settleOf i m) rest ≤ 1
    cases h : settleOf i m with
    | none => simpa using ih
    | some o => simp [settleEvents_settled]

theorem runListener_matches (i : Nat) :
    ∀ (msgs : List MessageFromWorker) (o : Outcome),
      runListener i none msgs = some o → o.message.msgId = i := by
  intro msgs
  induction msgs with
  | nil => intro o h; cases h
  | cons m rest ih =>
    intro o h
    show o.message.msgId = i
    have h' : runListener i (settleOf i m) rest = some o := h
    cases hm : settleOf i m with
    | none => exact ih o (by rwa [hm] at h')
    | some o' =>
      rw [hm, runListener_settled] at h'
      rw [← Option.some.inj h']
      exact settleOf_msgId hm

/-- C1: a completion registered by `waitForResponse` settles at most once over
any arrival sequence; whenever it settles, the settling message's id equals
the request's own id (all other ids are ignored by that completion); and
distinct requests receive distinct ids from the `nextMessageId` counter. -/
theorem transport_correlation :
    (∀ (i : Nat) (msgs : List MessageFromWorker), settleEvents i none msgs ≤ 1) ∧
    (∀ (i : Nat) (msgs : List MessageFromWorker) (o : Outcome),
      runListener i none msgs = some o → o.message.msgId = i) ∧
    (∀ j k : Nat, allocatedId j = allocatedId k → j = k) := by
  refine ⟨settleEvents_le_one, runListener_matches, ?_⟩
  intro j k h
  simpa [allocatedId, FirstMessageId] using h

/-- Witness for C1 at a concrete arrival sequence: an unrelated message with
id 2 is ignored, the response with id 1 settles the completion for request 1. -/
theorem transport_correlation_witness :
    runListener 1 none [.destroy 2, .printRich 1 []] = some (.resolved (.printRich 1 [])) ∧
    (Outcome.resolved (.printRich 1 [])).message.msgId = 1 ∧
    allocatedId 0 = 1 :=
  ⟨rfl, transport_correlation.2.1 1 [.destroy 2, .printRich 1 []] _ rfl,
   transport_correlation.2.2 0 0 rfl ▸ rfl⟩

theorem cacheGet_head (k : String) (v : List PrintPart) (rest : List (String × List PrintPart)) :
    cacheGet ((k, v) :: rest) k = some v := by
  simp [cacheGet]

/-- C2 (amended): a `printRich` call posts at most one message; if a call
returns successfully, a second call with the identical range is a cache hit —
it posts no message, leaves the state unchanged and returns the first call's
result — and a failed call (worker exception or unexpected response kind)
writes nothing into the cache. -/
theorem printRich_cache_correct (oracle : MessageToWorker → MessageFromWorker)
    (moduleId : Nat) (st : ClientState) (r : Rng) :
    (printRichCall oracle moduleId st r).2.2 ≤ 1 ∧
    (∀ parts, (printRichCall oracle moduleId st r).1 = .ok parts →
      printRichCall oracle moduleId (printRichCall oracle moduleId st r).2.1 r
        = (.ok parts, (printRichCall oracle moduleId st r).2.1, 0)) ∧
    (∀ e, (printRichCall oracle moduleId st r).1 = .error e →
      (printRichCall oracle moduleId st r).2.1.printRichCache = st.printRichCache) := by
  cases hc : cacheGet st.printRichCache (getCacheKey r) with
  | some cached =>
    refine ⟨?_, ?_, ?_⟩
    · simp [printRichCall, hc]
    · intro parts hp
      simp only [printRichCall, hc] at hp ⊢
      cases hp
      rfl
    · intro e he
      simp [printRichCall, hc] at he
  | none =>
    cases ho : oracle (.printRich st.nextMessageId moduleId r) with
    | exception i e =>
      refine ⟨?_, ?_, ?_⟩ <;> simp [printRichCall, hc, ho]
    | printRich i result =>
      refine ⟨?_, ?_, ?_⟩
      · simp [printRichCall, hc, ho]
      · intro parts hp
        simp only [printRichCall, hc, ho] at hp ⊢
        cases hp
        simp [cacheGet_head]
      · intro e he
        simp [printRichCall, hc, ho] at he
    | loaded i =>
      refine ⟨?_, ?_, ?_⟩ <;> simp [printRichCall, hc, ho]
    | construct i mid its ve =>
      refine ⟨?_, ?_, ?_⟩ <;> simp [printRichCall, hc, ho]
    | destroy i =>
      refine ⟨?_, ?_, ?_⟩ <;> simp [printRichCall, hc, ho]
    | getSource i src =>
      refine ⟨?_, ?_, ?_⟩ <;> simp [printRichCall, hc, ho]
    | printPlain i txt =>
      refine ⟨?_, ?_, ?_⟩ <;> simp [printRichCall, hc, ho]

/-- Witness for C2 at a concrete successful call: the first `printRich` for
`[1,5]` succeeds against `oracleRichOk`, and the second call is a pure cache
hit returning the same result with no message posted. -/
theorem printRich_cache_correct_witness :
    (printRichCall oracleRichOk 0 ⟨1, []⟩ ⟨1, 5⟩).1 = .ok [] ∧
    printRichCall oracleRichOk 0 (printRichCall oracleRichOk 0 ⟨1, []⟩ ⟨1, 5⟩).2.1 ⟨1, 5⟩
      = (.ok [], (printRichCall oracleRichOk 0 ⟨1, []⟩ ⟨1, 5⟩).2.1, 0) :=
  ⟨rfl, (printRich_cache_correct oracleRichOk 0 ⟨1, []⟩ ⟨1, 5⟩).2.1 [] rfl⟩

/-- Counterexample for C2 as stated: when the worker throws, nothing is
cached, so two `printRich` calls with the identical range on the same handle
post two messages — more than the claimed "at most one round trip". -/
theorem printRich_two_round_trips :
    (printRichCall oracleAlwaysThrows 0 ⟨1, []⟩ ⟨1, 5⟩).2.2
      + (printRichCall oracleAlwaysThrows 0
          (printRichCall oracleAlwaysThrows 0 ⟨1, []⟩ ⟨1, 5⟩).2.1 ⟨1, 5⟩).2.2 = 2 ∧
    ¬ ((printRichCall oracleAlwaysThrows 0 ⟨1, []⟩ ⟨1, 5⟩).2.2
      + (printRichCall oracleAlwaysThrows 0
          (printRichCall oracleAlwaysThrows 0 ⟨1, []⟩ ⟨1, 5⟩).2.1 ⟨1, 5⟩).2.2 ≤ 1) := by
  refine ⟨rfl, by decide⟩

/-- C3 (amended): `printPlain` posts exactly one message on every call and
neither consults nor modifies the handle's cache. -/
theorem printPlain_always_sends (oracle : MessageToWorker → MessageFromWorker)
    (moduleId : Nat) (st : ClientState) (r : Rng) :
    (printPlainCall oracle moduleId st r).2.2 = 1 ∧
    (printPlainCall oracle moduleId st r).2.1.printRichCache = st.printRichCache := by
  cases ho : oracle (.printPlain st.nextMessageId moduleId r) <;>
    simp [printPlainCall, ho]

/-- Counterexample for C3 as stated: the cache already holds the entry for
range `[1,5]` under its canonical key, yet `printPlain` for that very range
still posts a message — no cache consultation short-circuits the round trip. -/
theorem printPlain_ignores_cache :
    cacheGet stCached.printRichCache (getCacheKey ⟨1, 5⟩) = some [PrintPart.reset] ∧
    (printPlainCall oracleRichOk 0 stCached ⟨1, 5⟩).2.2 = 1 := by
  refine ⟨by decide, rfl⟩

/-- C6: a `PrintRich` (likewise `GetSource`/`PrintPlain`) request for a
module id absent from the worker's table is answered by an `Exception`
response carrying exactly that request's id, the state is unchanged and the
dispatcher does not terminate: a subsequent request on a live module id is
still processed and succeeds. -/
theorem worker_unknown_id {M : Type} (eng : Engine M) (s : WorkerState M)
    (badId liveId : Nat) (mod : M) (r1 r2 : Rng) (parts : List PrintPart) (i1 i2 : Nat)
    (hbad : tableGet s.modules badId = none)
    (hlive : tableGet s.modules liveId = some mod)
    (hok : eng.printRich mod r2 = .ok parts) :
    handleMessage eng s (.printRich i1 badId r1) = (s, .exception i1 .typeErrorUndefined) ∧
    handleMessage eng s (.getSource i1 badId) = (s, .exception i1 .typeErrorUndefined) ∧
    handleMessage eng s (.printPlain i1 badId r1) = (s, .exception i1 .typeErrorUndefined) ∧
    processMessages eng s [.printRich i1 badId r1, .printRich i2 liveId r2]
      = (s, [.exception i1 .typeErrorUndefined, .printRich i2 parts]) := by
  refine ⟨?_, ?_, ?_, ?_⟩ <;>
    simp [handleMessage, processMessages, hbad, hlive, hok]

/-- Witness for C6: the concrete unit worker state knows module 0 only; a
`PrintRich` on id 7 is answered with an `Exception`, and the following
`PrintRich` on id 0 succeeds. -/
theorem worker_unknown_id_witness :
    tableGet unitWorkerState.modules 7 = none ∧
    tableGet unitWorkerState.modules 0 = some () ∧
    unitEngine.printRich () ⟨0, 1⟩ = .ok [] ∧
    processMessages unitEngine unitWorkerState
        [.printRich 5 7 ⟨0, 1⟩, .printRich 6 0 ⟨0, 1⟩]
      = (unitWorkerState, [.exception 5 .typeErrorUndefined, .printRich 6 []]) :=
  ⟨rfl, rfl, rfl,
   (worker_unknown_id unitEngine unitWorkerState 7 0 () ⟨0, 1⟩ ⟨0, 1⟩ [] 5 6
     rfl rfl rfl).2.2.2⟩

theorem attach_range (t c : ItemTree) : (attachChild t c).range = t.range := by
  cases t
  rfl

theorem attach_children (t c : ItemTree) :
    (attachChild t c).children = t.children ++ [c] := by
  cases t
  rfl

theorem val_index (t : ItemTree) : (ItemTree.val t).index = t.index := by
  cases t
  rfl

theorem preVL_append (xs ys : List ItemTree) : preVL (xs ++ ys) = preVL xs ++ preVL ys := by
  induction xs with
  | nil => rfl
  | cons c cs ih => simp [preVL, ih]

theorem preV_attach (t c : ItemTree) : preV (attachChild t c) = preV t ++ preV c := by
  cases t with
  | mk rn dn r i cs => simp [attachChild, preV, preVL_append, preVL]

theorem collapseAll_attach_pre (node : ItemTree) :
    ∀ (rest : List ItemTree) (u w : ItemTree), preV u = preV w ++ preV node →
      preV (collapseAll u rest) = preV (collapseAll w rest) ++ preV node := by
  intro rest
  induction rest with
  | nil => intro u w h; simpa [collapseAll] using h
  | cons p rest ih =>
    intro u w h
    show preV (collapseAll (attachChild p u) rest) = preV (collapseAll (attachChild p w) rest) ++ preV node
    exact ih _ _ (by rw [preV_attach, preV_attach, h, List.append_assoc])

theorem collapse_attach_top (node t : ItemTree) (rest : List ItemTree) :
    preV (collapseAll (attachChild t node) rest) = preV (collapseAll t rest) ++ preV node :=
  collapseAll_attach_pre node rest _ t (preV_attach t node)

theorem popLoop_pre (r : Rng) :
    ∀ (rest : List ItemTree) (t : ItemTree),
      preV (collapseAll (popLoop r t rest).1 (popLoop r t rest).2) = preV (collapseAll t rest) := by
  intro rest
  induction rest with
  | nil => intro t; rfl
  | cons p rest ih =>
    intro t
    by_cases h : containsR t.range r = true
    · simp [popLoop, h]
    · have hstep : popLoop r t (p :: rest) = popLoop r (attachChild p t) rest := by
        simp [popLoop, h]
      rw [hstep, ih]
      rfl

theorem stepItem_pre (it : Item) (idx : Nat) (t : ItemTree) (rest : List ItemTree) :
    preV (collapseAll (stepItem it idx (t, rest)).1 (stepItem it idx (t, rest)).2)
      = preV (collapseAll t rest) ++ [⟨it.rawName, it.displayName, it.range, (idx : Int)⟩] := by
  have hnode : preV (ItemTree.mk it.rawName it.displayName it.range (idx : Int) [])
      = [⟨it.rawName, it.displayName, it.range, (idx : Int)⟩] := rfl
  by_cases hr : it.range.stop > it.range.start
  · have hstep : stepItem it idx (t, rest)
        = (ItemTree.mk it.rawName it.displayName it.range (idx : Int) [],
           (popLoop it.range t rest).1 :: (popLoop it.range t rest).2) := by
      simp [stepItem, hr]
    rw [hstep]
    show preV (collapseAll
        (attachChild (popLoop it.range t rest).1
          (ItemTree.mk it.rawName it.displayName it.range (idx : Int) []))
        (popLoop it.range t rest).2) = _
    rw [collapse_attach_top, popLoop_pre, hnode]
  · have hstep : stepItem it idx (t, rest)
        = (attachChild (popLoop it.range t rest).1
            (ItemTree.mk it.rawName it.displayName it.range (idx : Int) []),
           (popLoop it.range t rest).2) := by
      simp [stepItem, hr]
    rw [hstep]
    show preV (collapseAll
        (attachChild (popLoop it.range t rest).1
          (ItemTree.mk it.rawName it.displayName it.range (idx : Int) []))
        (popLoop it.range t rest).2) = _
    rw [collapse_attach_top, popLoop_pre, hnode]

theorem runItems_pre :
    ∀ (its : List Item) (t : ItemTree) (rest : List ItemTree) (idx : Nat),
      preV (collapseAll (runItems (t, rest) its idx).1 (runItems (t, rest) its idx).2)
        = preV (collapseAll t rest) ++ leafVals its idx := by
  intro its
  induction its with
  | nil => intro t rest idx; simp [runItems, leafVals]
  | cons it its ih =>
    intro t rest idx
    show preV (collapseAll (runItems (stepItem it idx (t, rest)) its (idx + 1)).1
        (runItems (stepItem it idx (t, rest)) its (idx + 1)).2) = _
    rcases hst : stepItem it idx (t, rest) with ⟨t', rest'⟩
    have hsp := stepItem_pre it idx t rest
    rw [hst] at hsp
    have hsp' : preV (collapseAll t' rest')
        = preV (collapseAll t rest)
          ++ [⟨it.rawName, it.displayName, it.range, (idx : Int)⟩] := hsp
    rw [ih t' rest' (idx + 1), hsp', leafVals, List.append_assoc]
    rfl

theorem preV_itemsToTree (items : List Item) :
    preV (itemsToTree items) = rootVal items :: leafVals items 0 := by
  by_cases h : items.isEmpty
  · cases items with
    | nil => rfl
    | cons a l => simp at h
  · have hroot : preV (collapseAll (rootFor items) []) = [rootVal items] := rfl
    show preV (if items.isEmpty then ItemTree.mk "root" "root" ⟨0, 0⟩ (-1) []
      else
        let st := runItems (rootFor items, []) items 0
        collapseAll st.1 st.2) = _
    rw [if_neg h]
    show preV (collapseAll (runItems (rootFor items, []) items 0).1
        (runItems (rootFor items, []) items 0).2) = _
    rw [runItems_pre items (rootFor items) [] 0, hroot]
    rfl

theorem leafVals_bound (its : List Item) :
    ∀ (idx : Nat) (v : NodeVal), v ∈ leafVals its idx → (idx : Int) ≤ v.index := by
  induction its with
  | nil => intro idx v hv; simp [leafVals] at hv
  | cons it its ih =>
    intro idx v hv
    rcases (by simpa [leafVals] using hv :
        v = (⟨it.rawName, it.displayName, it.range, (idx : Int)⟩ : NodeVal)
          ∨ v ∈ leafVals its (idx + 1)) with h | h
    · subst h; simp
    · have := ih (idx + 1) v h
      omega

theorem leafVals_pairwise (its : List Item) :
    ∀ idx : Nat, ((leafVals its idx).map NodeVal.index).Pairwise (· < ·) := by
  induction its with
  | nil => intro idx; simp [leafVals]
  | cons it its ih =>
    intro idx
    rw [leafVals, List.map_cons, List.pairwise_cons]
    refine ⟨?_, ih (idx + 1)⟩
    intro b hb
    rcases List.mem_map.mp hb with ⟨v, hv, rfl⟩
    have := leafVals_bound its (idx + 1) v hv
    simp only [NodeVal.index] at this ⊢
    omega

theorem preTree_pairwise (items : List Item) :
    ((preV (itemsToTree items)).map NodeVal.index).Pairwise (· < ·) := by
  rw [preV_itemsToTree, List.map_cons, List.pairwise_cons]
  refine ⟨?_, leafVals_pairwise items 0⟩
  intro b hb
  rcases List.mem_map.mp hb with ⟨v, hv, rfl⟩
  have := leafVals_bound items 0 v hv
  simp only [rootVal] at *
  omega

theorem ItemTree.inductionOn {P : ItemTree → Prop}
    (h : ∀ rn dn r i cs, (∀ c ∈ cs, P c) → P (.mk rn dn r i cs)) : ∀ t, P t
  | .mk rn dn r i cs =>
    h rn dn r i cs (fun c hc => ItemTree.inductionOn h c)
termination_by t => sizeOf t
decreasing_by
  have := List.sizeOf_lt_of_mem hc
  simp only [ItemTree.mk.sizeOf_spec]
  omega

theorem preV_sublist_preVL (c : ItemTree) :
    ∀ cs : List ItemTree, c ∈ cs → (preV c).Sublist (preVL cs) := by
  intro cs
  induction cs with
  | nil => intro hc; cases hc
  | cons d ds ih =>
    intro hc
    rcases List.mem_cons.mp hc with rfl | hc
    · show (preV c).Sublist (preV c ++ preVL ds)
      exact List.sublist_append_left _ _
    · show (preV c).Sublist (preV d ++ preVL ds)
      exact (ih hc).trans (List.sublist_append_right _ _)

theorem childVals_sublist :
    ∀ cs : List ItemTree, (cs.map ItemTree.val).Sublist (preVL cs) := by
  intro cs
  induction cs with
  | nil => simp [preVL]
  | cons d ds ih =>
    cases d with
    | mk rn dn r i cs' =>
      show ((⟨rn, dn, r, i⟩ : NodeVal) :: ds.map ItemTree.val).Sublist
        ((⟨rn, dn, r, i⟩ :: preVL cs') ++ preVL ds)
      rw [List.cons_append]
      exact List.Sublist.cons₂ _ (ih.trans (List.sublist_append_right _ _))

theorem pairwise_idxChain :
    ∀ cs : List ItemTree, ((cs.map ItemTree.val).map NodeVal.index).Pairwise (· < ·) →
      idxChainB cs = true := by
  intro cs
  induction cs with
  | nil => intro _; rfl
  | cons a rest ih =>
    cases rest with
    | nil => intro _; rfl
    | cons b rest2 =>
      intro h
      rw [List.map_cons, List.map_cons, List.pairwise_cons] at h
      have hab : a.val.index < b.val.index := by
        exact h.1 b.val.index (by simp)
      show (a.index < b.index && idxChainB (b :: rest2)) = true
      rw [Bool.and_eq_true]
      refine ⟨?_, ih h.2⟩
      rw [val_index, val_index] at hab
      exact decide_eq_true hab

theorem sibOkL_all :
    ∀ cs : List ItemTree, (∀ c ∈ cs, sibOkB c = true) → sibOkL cs = true := by
  intro cs
  induction cs with
  | nil => intro _; rfl
  | cons c cs ih =>
    intro h
    show (sibOkB c && sibOkL cs) = true
    rw [Bool.and_eq_true]
    exact ⟨h c (by simp), ih (fun d hd => h d (by simp [hd]))⟩

theorem pairwise_sibOk :
    ∀ t : ItemTree, ((preV t).map NodeVal.index).Pairwise (· < ·) → sibOkB t = true := by
  intro t
  induction t using ItemTree.inductionOn with
  | _ rn dn r i cs ih =>
    intro h
    have htail : ((preVL cs).map NodeVal.index).Pairwise (· < ·) := by
      rw [show preV (ItemTree.mk rn dn r i cs) = ⟨rn, dn, r, i⟩ :: preVL cs from rfl,
        List.map_cons, List.pairwise_cons] at h
      exact h.2
    show (idxChainB cs && sibOkL cs) = true
    rw [Bool.and_eq_true]
    constructor
    · exact pairwise_idxChain cs (htail.sublist ((childVals_sublist cs).map NodeVal.index))
    · refine sibOkL_all cs (fun c hc => ih c hc ?_)
      exact htail.sublist ((preV_sublist_preVL c cs hc).map NodeVal.index)

/-- C5: for every item sequence satisfying the ordering precondition, the
pre-order traversal of `itemsToTree`'s result visits exactly the synthetic
root followed by the items' nodes in their original supplied order, and every
node lists its children in the order (strictly increasing item index) their
items were supplied. -/
theorem tree_preorder_order (items : List Item) (h : orderedPreconditionB items = true) :
    preV (itemsToTree items) = rootVal items :: leafVals items 0 ∧
    sibOkB (itemsToTree items) = true :=
  ⟨preV_itemsToTree items, pairwise_sibOk _ (preTree_pairwise items)⟩

/-- Witness for C5 at a concrete nested item sequence satisfying the
ordering precondition. -/
theorem tree_preorder_order_witness :
    orderedPreconditionB exNest = true ∧
    (preV (itemsToTree exNest) = rootVal exNest :: leafVals exNest 0 ∧
     sibOkB (itemsToTree exNest) = true) :=
  ⟨by decide, tree_preorder_order exNest (by decide)⟩

theorem leafVals_length (its : List Item) :
    ∀ idx : Nat, (leafVals its idx).length = its.length := by
  induction its with
  | nil => intro idx; rfl
  | cons it its ih => intro idx; simp [leafVals, ih]

theorem leafVals_countP_lt (its : List Item) :
    ∀ idx k : Nat, k < idx →
      (leafVals its idx).countP (fun v => decide (v.index = (k : Int))) = 0 := by
  induction its with
  | nil => intro idx k _; rfl
  | cons it its ih =>
    intro idx k hk
    rw [leafVals, List.countP_cons]
    have hhead : (decide ((⟨it.rawName, it.displayName, it.range, (idx : Int)⟩ :
        NodeVal).index = (k : Int))) = false := by
      simp only [NodeVal.index, decide_eq_false_iff_not]
      omega
    rw [hhead, ih (idx + 1) k (by omega)]
    simp

theorem leafVals_countP_one (its : List Item) :
    ∀ idx k : Nat, idx ≤ k → k < idx + its.length →
      (leafVals its idx).countP (fun v => decide (v.index = (k : Int))) = 1 := by
  induction its with
  | nil => intro idx k h1 h2; simp at h2; omega
  | cons it its ih =>
    intro idx k h1 h2
    rw [leafVals, List.countP_cons]
    by_cases hk : k = idx
    · subst hk
      have hhead : (decide ((⟨it.rawName, it.displayName, it.range, (k : Int)⟩ :
          NodeVal).index = (k : Int))) = true := by
        simp [NodeVal.index]
      rw [hhead, leafVals_countP_lt its (k + 1) k (by omega)]
      simp
    · have hhead : (decide ((⟨it.rawName, it.displayName, it.range, (idx : Int)⟩ :
          NodeVal).index = (k : Int))) = false := by
        simp only [NodeVal.index, decide_eq_false_iff_not]
        omega
      rw [hhead, ih (idx + 1) k (by omega) (by simp at h2; omega)]
      simp

/-- C10: on every item sequence — precondition-violating ones included —
`itemsToTree` totally computes a tree whose root is the synthetic root
(index `-1`, never popped), with exactly one node per input item: the
pre-order value list has length `items.length + 1` and each item index
occurs exactly once in it. -/
theorem tree_every_item_once (items : List Item) :
    (itemsToTree items).index = -1 ∧
    (preV (itemsToTree items)).length = items.length + 1 ∧
    (∀ k : Nat, k < items.length →
      (preV (itemsToTree items)).countP (fun v => decide (v.index = (k : Int))) = 1) := by
  have hpre := preV_itemsToTree items
  refine ⟨?_, ?_, ?_⟩
  · cases ht : itemsToTree items with
    | mk rn dn r i cs =>
      rw [ht] at hpre
      have hval : (⟨rn, dn, r, i⟩ : NodeVal) = rootVal items := by
        have : preV (ItemTree.mk rn dn r i cs) = ⟨rn, dn, r, i⟩ :: preVL cs := rfl
        rw [this] at hpre
        exact (List.cons.injEq _ _ _ _ ▸ hpre).1
      show i = -1
      have := congrArg NodeVal.index hval
      simpa [rootVal, NodeVal.index] using this
  · rw [hpre]
    simp [leafVals_length]
  · intro k hk
    rw [hpre, List.countP_cons]
    have hroot : (decide ((rootVal items).index = (k : Int))) = false := by
      simp only [rootVal, NodeVal.index, decide_eq_false_iff_not]
      omega
    rw [hroot, leafVals_countP_one items 0 k (by omega) (by omega)]
    simp

/-- Witness for C10 at a concrete two-item sequence: item index 1 occurs
exactly once among the tree's nodes. -/
theorem tree_every_item_once_witness :
    1 < exC10.length ∧
    (preV (itemsToTree exC10)).countP (fun v => decide (v.index = ((1 : Nat) : Int))) = 1 :=
  ⟨by decide, (tree_every_item_once exC10).2.2 1 (by decide)⟩

theorem containedB_mk (rn dn : String) (r : Rng) (i : Int) (cs : List ItemTree) :
    containedB (.mk rn dn r i cs) = containedL r cs := rfl

theorem containedL_append (r : Rng) (xs ys : List ItemTree) :
    containedL r (xs ++ ys) = (containedL r xs && containedL r ys) := by
  induction xs with
  | nil => simp [containedL]
  | cons c cs ih => simp [containedL, ih, Bool.and_assoc]

theorem containedB_attach (t c : ItemTree) :
    containedB (attachChild t c)
      = (containedB t && (containsR t.range c.range && containedB c)) := by
  cases t with
  | mk rn dn r i cs =>
    show containedL r (cs ++ [c]) = _
    rw [containedL_append, containedB_mk]
    simp [containedL, ItemTree.range]

theorem allContainedL_append (xs ys : List ItemTree) :
    allContainedL (xs ++ ys) = (allContainedL xs && allContainedL ys) := by
  induction xs with
  | nil => simp [allContainedL]
  | cons c cs ih => simp [allContainedL, ih, Bool.and_assoc]

theorem stackOk_collapse (t p : ItemTree) (rest : List ItemTree)
    (h : stackOkB t (p :: rest) = true) : stackOkB (attachChild p t) rest = true := by
  have h' : (containedB t && (rest.isEmpty || containsR p.range t.range)
      && stackOkB p rest) = true := h
  rw [Bool.and_eq_true, Bool.and_eq_true] at h'
  obtain hct := h'.1.1
  obtain hadj := h'.1.2
  obtain hrest := h'.2
  cases rest with
  | nil =>
    show allContainedL (attachChild p t).children = true
    rw [attach_children, allContainedL_append]
    have hp : allContainedL p.children = true := hrest
    simp [allContainedL, hp, hct]
  | cons q rest2 =>
    have hcon : containsR p.range t.range = true := by
      rw [Bool.or_eq_true] at hadj
      rcases hadj with hx | hx
      · exact absurd hx (by simp)
      · exact hx
    have hq : (containedB p && (rest2.isEmpty || containsR q.range p.range)
        && stackOkB q rest2) = true := hrest
    rw [Bool.and_eq_true, Bool.and_eq_true] at hq
    show (containedB (attachChild p t)
        && (rest2.isEmpty || containsR q.range (attachChild p t).range)
        && stackOkB q rest2) = true
    rw [containedB_attach, attach_range]
    simp only [Bool.and_eq_true]
    exact ⟨⟨⟨hq.1.1, hcon, hct⟩, hq.1.2⟩, hq.2⟩

theorem stackOk_popLoop (r : Rng) :
    ∀ (rest : List ItemTree) (t : ItemTree), stackOkB t rest = true →
      stackOkB (popLoop r t rest).1 (popLoop r t rest).2 = true := by
  intro rest
  induction rest with
  | nil => intro t h; exact h
  | cons p rest ih =>
    intro t h
    by_cases hc : containsR t.range r = true
    · simp only [popLoop, hc, if_true]
      exact h
    · have hstep : popLoop r t (p :: rest) = popLoop r (attachChild p t) rest := by
        simp [popLoop, hc]
      rw [hstep]
      exact ih _ (stackOk_collapse t p rest h)

theorem popLoop_break (r : Rng) :
    ∀ (rest : List ItemTree) (t : ItemTree),
      (popLoop r t rest).2 = [] ∨ containsR (popLoop r t rest).1.range r = true := by
  intro rest
  induction rest with
  | nil => intro t; exact Or.inl rfl
  | cons p rest ih =>
    intro t
    by_cases hc : containsR t.range r = true
    · right
      simp [popLoop, hc]
    · have hstep : popLoop r t (p :: rest) = popLoop r (attachChild p t) rest := by
        simp [popLoop, hc]
      rw [hstep]
      exact ih _

theorem stackOk_step (it : Item) (idx : Nat) (t : ItemTree) (rest : List ItemTree)
    (h : stackOkB t rest = true) :
    stackOkB (stepItem it idx (t, rest)).1 (stepItem it idx (t, rest)).2 = true := by
  have h1 := stackOk_popLoop it.range rest t h
  have h2 := popLoop_break it.range rest t
  have hnodeC : containedB (ItemTree.mk it.rawName it.displayName it.range (idx : Int) [])
      = true := rfl
  by_cases hr : it.range.stop > it.range.start
  · have hstep : stepItem it idx (t, rest)
        = (ItemTree.mk it.rawName it.displayName it.range (idx : Int) [],
           (popLoop it.range t rest).1 :: (popLoop it.range t rest).2) := by
      simp [stepItem, hr]
    rw [hstep]
    show (containedB (ItemTree.mk it.rawName it.displayName it.range (idx : Int) [])
        && ((popLoop it.range t rest).2.isEmpty
            || containsR (popLoop it.range t rest).1.range
                (ItemTree.mk it.rawName it.displayName it.range (idx : Int) []).range)
        && stackOkB (popLoop it.range t rest).1 (popLoop it.range t rest).2) = true
    simp only [Bool.and_eq_true, Bool.or_eq_true]
    refine ⟨⟨by rfl, ?_⟩, h1⟩
    rcases h2 with h2 | h2
    · left
      rw [h2]
      rfl
    · right
      exact h2
  · have hstep : stepItem it idx (t, rest)
        = (attachChild (popLoop it.range t rest).1
            (ItemTree.mk it.rawName it.displayName it.range (idx : Int) []),
           (popLoop it.range t rest).2) := by
      simp [stepItem, hr]
    rw [hstep]
    cases hrest : (popLoop it.range t rest).2 with
    | nil =>
      rw [hrest] at h1
      show allContainedL (attachChild (popLoop it.range t rest).1
          (ItemTree.mk it.rawName it.displayName it.range (idx : Int) [])).children = true
      rw [attach_children, allContainedL_append]
      have hbase : allContainedL (popLoop it.range t rest).1.children = true := h1
      simp [allContainedL, hbase, hnodeC]
    | cons q rest2 =>
      rw [hrest] at h1 h2
      have hcon : containsR (popLoop it.range t rest).1.range it.range = true := by
        rcases h2 with h2 | h2
        · exact absurd h2 (List.cons_ne_nil q rest2)
        · exact h2
      show (containedB (attachChild (popLoop it.range t rest).1
            (ItemTree.mk it.rawName it.displayName it.range (idx : Int) []))
          && (rest2.isEmpty || containsR q.range (attachChild (popLoop it.range t rest).1
              (ItemTree.mk it.rawName it.displayName it.range (idx : Int) [])).range)
          && stackOkB q rest2) = true
      rw [containedB_attach, attach_range]
      have h1' : (containedB (popLoop it.range t rest).1
          && (rest2.isEmpty || containsR q.range (popLoop it.range t rest).1.range)
          && stackOkB q rest2) = true := h1
      simp only [Bool.and_eq_true, Bool.or_eq_true] at h1' ⊢
      obtain ⟨⟨hcp, hadj⟩, hq⟩ := h1'
      exact ⟨⟨⟨hcp, hcon, hnodeC⟩, hadj⟩, hq⟩

theorem stackOk_runItems :
    ∀ (its : List Item) (t : ItemTree) (rest : List ItemTree) (idx : Nat),
      stackOkB t rest = true →
      stackOkB (runItems (t, rest) its idx).1 (runItems (t, rest) its idx).2 = true := by
  intro its
  induction its with
  | nil => intro t rest idx h; exact h
  | cons it its ih =>
    intro t rest idx h
    show stackOkB (runItems (stepItem it idx (t, rest)) its (idx + 1)).1
        (runItems (stepItem it idx (t, rest)) its (idx + 1)).2 = true
    rcases hst : stepItem it idx (t, rest) with ⟨t2, rest2⟩
    have := stackOk_step it idx t rest h
    rw [hst] at this
    exact ih t2 rest2 (idx + 1) this

theorem stackOk_collapseAll :
    ∀ (rest : List ItemTree) (t : ItemTree), stackOkB t rest = true →
      allContainedL (collapseAll t rest).children = true := by
  intro rest
  induction rest with
  | nil => intro t h; exact h
  | cons p rest ih =>
    intro t h
    exact ih (attachChild p t) (stackOk_collapse t p rest h)

theorem itemsToTree_contained (items : List Item) :
    allContainedL (itemsToTree items).children = true := by
  by_cases h : items.isEmpty
  · cases items with
    | nil => rfl
    | cons a l => simp at h
  · show allContainedL (if items.isEmpty then ItemTree.mk "root" "root" ⟨0, 0⟩ (-1) []
      else
        let st := runItems (rootFor items, []) items 0
        collapseAll st.1 st.2).children = true
    rw [if_neg h]
    show allContainedL (collapseAll (runItems (rootFor items, []) items 0).1
        (runItems (rootFor items, []) items 0).2).children = true
    rcases hst : runItems (rootFor items, []) items 0 with ⟨t2, rest2⟩
    have hok := stackOk_runItems items (rootFor items) [] 0 rfl
    rw [hst] at hok
    exact stackOk_collapseAll rest2 t2 hok

/-- C4 (amended): for every item sequence satisfying the ordering
precondition, every node attached below an item node has a range fully
contained in that parent's range; children attached directly to the synthetic
root are exempt — the root's range `[0, last item's end]` need not cover
them. -/
theorem tree_containment_below_root (items : List Item)
    (h : orderedPreconditionB items = true) :
    allContainedL (itemsToTree items).children = true :=
  itemsToTree_contained items

/-- Witness for C4 (amended) at the concrete sequence `exC4`, which satisfies
the ordering precondition. -/
theorem tree_containment_below_root_witness :
    orderedPreconditionB exC4 = true ∧
    allContainedL (itemsToTree exC4).children = true :=
  ⟨by decide, tree_containment_below_root exC4 (by decide)⟩

/-- Counterexample for C4 as stated: `exC4` satisfies the ordering
precondition, yet the tree contains a node (the first item, attached directly
to the synthetic root whose range `[0,3]` is taken from the last item) whose
range is not contained in its parent's range. -/
theorem tree_containment_root_violated :
    orderedPreconditionB exC4 = true ∧ containedB (itemsToTree exC4) = false := by
  refine ⟨by decide, by decide⟩

/-- C7 (amended): whenever the lowercased query begins with `0x` and its
remainder parses as hexadecimal, `calculateSimilarityScore` returns the
offset-match score alone — the result is independent of the node name, and a
parsed value outside the node's range scores `0` even when the name-match
score would be higher. The name-match score is used only when the query does
not enter the hexadecimal mode. -/
theorem score_hex_mode_only (q n₁ n₂ : String) (r : Rng) (v : Int)
    (hq : leadsWith ['0', 'x'] (lowerL q) = true)
    (hv : jsParseIntHex (drop0xOnce (lowerL q)) = some v) :
    calculateSimilarityScore q n₁ (some r) = calculateSimilarityScore q n₂ (some r) ∧
    (¬ (v ≥ (r.start : Int) ∧ v ≤ (r.stop : Int)) →
      calculateSimilarityScore q n₁ (some r) = 0) := by
  constructor
  · simp only [calculateSimilarityScore, hq, hv, Option.isSome_some, Bool.and_self, if_true]
  · intro hout
    simp only [calculateSimilarityScore, hq, hv, Option.isSome_some, Bool.and_self, if_true]
    rw [if_neg hout]

/-- Witness for C7 (amended): the query `0x10` against the range `[0,5]`
scores identically for any two names, and scores `0` because 16 is out of
range. -/
theorem score_hex_mode_only_witness :
    leadsWith ['0', 'x'] (lowerL "0x10") = true ∧
    jsParseIntHex (drop0xOnce (lowerL "0x10")) = some 16 ∧
    calculateSimilarityScore "0x10" "aa" (some ⟨0, 5⟩)
      = calculateSimilarityScore "0x10" "bb" (some ⟨0, 5⟩) ∧
    calculateSimilarityScore "0x10" "aa" (some ⟨0, 5⟩) = 0 :=
  ⟨rfl, rfl, (score_hex_mode_only "0x10" "aa" "bb" ⟨0, 5⟩ 16 rfl rfl).1,
   (score_hex_mode_only "0x10" "aa" "bb" ⟨0, 5⟩ 16 rfl rfl).2 (by decide)⟩

/-- Counterexample for C7 as stated: for the query `0xab` against a node
named `0xab` with range `[0,5]`, the code returns `0`, not the maximum of the
offset-match score (0, out of range) and the name-match score (1): an
out-of-range hexadecimal query does not fall back to its name-match score. -/
theorem score_ignores_name_match :
    calculateSimilarityScore "0xab" "0xab" (some ⟨0, 5⟩) = 0 ∧
    combinedScoreSpec "0xab" "0xab" ⟨0, 5⟩ = 1 ∧
    calculateSimilarityScore "0xab" "0xab" (some ⟨0, 5⟩)
      ≠ combinedScoreSpec "0xab" "0xab" ⟨0, 5⟩ := by
  have h1 : calculateSimilarityScore "0xab" "0xab" (some ⟨0, 5⟩) = 0 := rfl
  have hname : nameScoreClaimed "0xab" "0xab" = 1 := by
    have hinf : infixOf (lowerL "0xab") (lowerL "0xab") = true := rfl
    have hcount : ((lowerL "0xab").filter (fun c => (lowerL "0xab").contains c)).length = 4 := rfl
    have hlen : (lowerL "0xab").length = 4 := rfl
    simp only [nameScoreClaimed, hinf, hcount, hlen, if_true]
    norm_num
  have h2 : combinedScoreSpec "0xab" "0xab" ⟨0, 5⟩ = 1 := by
    have hoff : offsetScoreSpec "0xab" ⟨0, 5⟩ = 0 := rfl
    rw [combinedScoreSpec, hoff, hname]
    norm_num
  refine ⟨h1, h2, ?_⟩
  rw [h1, h2]
  norm_num

/-- C8 (amended): for a query that begins with `0x` and parses as hexadecimal
to a value inside the node's range, the score equals
`max(0.5, 1 - rangeSize/1_000_000)` and is therefore at least `0.5`; in the
spec's concrete example, `0x10` scores `0` against the item with range
`[0,5]`, at least `0.5` against the item with range `[5,20]`, and the search
selects exactly the second item. -/
theorem score_hex_in_range (q n : String) (r : Rng) (v : Int)
    (hq : leadsWith ['0', 'x'] (lowerL q) = true)
    (hv : jsParseIntHex (drop0xOnce (lowerL q)) = some v)
    (hin : v ≥ (r.start : Int) ∧ v ≤ (r.stop : Int)) :
    calculateSimilarityScore q n (some r)
      = max ((1 : ℚ)/2) (1 - ((r.stop : ℚ) - (r.start : ℚ)) / 1000000) ∧
    (1 : ℚ)/2 ≤ calculateSimilarityScore q n (some r) ∧
    calculateSimilarityScore "0x10" "a" (some ⟨0, 5⟩) = 0 ∧
    (1 : ℚ)/2 ≤ calculateSimilarityScore "0x10" "b" (some ⟨5, 20⟩) ∧
    closestMatchIndex "0x10" exSearch = 1 := by
  have hform : calculateSimilarityScore q n (some r)
      = max ((1 : ℚ)/2) (1 - ((r.stop : ℚ) - (r.start : ℚ)) / 1000000) := by
    simp only [calculateSimilarityScore, hq, hv, Option.isSome_some, Bool.and_self, if_true]
    rw [if_pos hin]
  have hs1 : calculateSimilarityScore "0x10" "a" (some ⟨0, 5⟩) = 0 := rfl
  have hs2 : calculateSimilarityScore "0x10" "b" (some ⟨5, 20⟩) = 999985/1000000 := by
    show max ((1 : ℚ)/2) (1 - (((20 : Nat) : ℚ) - ((5 : Nat) : ℚ)) / 1000000) = 999985/1000000
    rw [max_eq_right (by norm_num)]
    norm_num
  refine ⟨hform, ?_, hs1, ?_, ?_⟩
  · rw [hform]
    exact le_max_left _ _
  · rw [hs2]
    norm_num
  · have hc0 : Char.toLower '0' = '0' := rfl
    have hcx : Char.toLower 'x' = 'x' := rfl
    have hc1 : Char.toLower '1' = '1' := rfl
    have hstr : (String.mk ['0', 'x', '1', '0']) = "0x10" := rfl
    have htrim : (("0x10".data.dropWhile isJsSpace).reverse.dropWhile isJsSpace).isEmpty
        = false := rfl
    rw [closestMatchIndex, htrim]
    norm_num [exSearch, searchLoop, hc0, hcx, hc1, hstr, hs1, hs2]

/-- Witness for C8 at the concrete in-range pairing: `0x10` parses to 16,
which lies in `[5,20]`. -/
theorem score_hex_in_range_witness :
    leadsWith ['0', 'x'] (lowerL "0x10") = true ∧
    jsParseIntHex (drop0xOnce (lowerL "0x10")) = some 16 ∧
    ((16 : Int) ≥ (((5 : Nat) : Int)) ∧ (16 : Int) ≤ (((20 : Nat) : Int))) ∧
    calculateSimilarityScore "0x10" "b" (some ⟨5, 20⟩)
      = max ((1 : ℚ)/2) ((1 : ℚ) - (((20 : Nat) : ℚ) - ((5 : Nat) : ℚ)) / 1000000) ∧
    closestMatchIndex "0x10" exSearch = 1 :=
  ⟨rfl, rfl, by decide,
   (score_hex_in_range "0x10" "b" ⟨5, 20⟩ 16 rfl rfl (by decide)).1,
   (score_hex_in_range "0x10" "b" ⟨5, 20⟩ 16 rfl rfl (by decide)).2.2.2.2⟩

/-- Counterexample for C8 as stated: the query `10` parses as hexadecimal
(16, per the spec's "with or without a 0x prefix") and falls within the range
`[5,20]`, yet the code scores it `0` (name overlap with `zzz`), not the
claimed `max(0.5, 1 - rangeSize/1_000_000)` — offset scoring requires the
`0x` prefix. -/
theorem score_requires_hex_marker :
    jsParseIntHex (lowerL "10") = some 16 ∧
    ((16 : Int) ≥ (((5 : Nat) : Int)) ∧ (16 : Int) ≤ (((20 : Nat) : Int))) ∧
    calculateSimilarityScore "10" "zzz" (some ⟨5, 20⟩) = 0 ∧
    calculateSimilarityScore "10" "zzz" (some ⟨5, 20⟩)
      ≠ max ((1 : ℚ)/2) ((1 : ℚ) - (((20 : Nat) : ℚ) - ((5 : Nat) : ℚ)) / 1000000) := by
  have hz : calculateSimilarityScore "10" "zzz" (some ⟨5, 20⟩) = 0 := by
    have hlw : leadsWith ['0', 'x'] (lowerL "10") = false := rfl
    have hinf : infixOf (lowerL "10") (lowerL "zzz") = false := rfl
    have hcount : ((lowerL "zzz").filter (fun c => (lowerL "10").contains c)).length = 0 := rfl
    simp only [calculateSimilarityScore, nameOverlapScore, hlw, Bool.false_and, if_false,
      hinf, hcount]
    norm_num
  refine ⟨rfl, by decide, hz, ?_⟩
  rw [hz, max_eq_right (by norm_num)]
  norm_num

/-- C9 (amended): with no range supplied (hence always in name mode), the
code's score equals the amended formula: the count of *name* characters
present in the query — not query characters present in the name — divided by
the longer string's length, boosted by `queryLength/nameLength` when the name
contains the query, capped at 1. Stated for non-empty queries (for the empty
query and name, JavaScript's `0/0` is `NaN`, outside the rational model). -/
theorem score_name_overlap_direction (q n : String) (hq : q ≠ "") :
    calculateSimilarityScore q n none = nameScoreAmendedSpec q n := by
  simp only [calculateSimilarityScore, Option.isSome_none, Bool.and_false, if_false]
  rfl

/-- Witness for C9 (amended) at a concrete pairing. -/
theorem score_name_overlap_direction_witness :
    "ab" ≠ "" ∧
    calculateSimilarityScore "ab" "b" none = nameScoreAmendedSpec "ab" "b" :=
  ⟨by decide, score_name_overlap_direction "ab" "b" (by decide)⟩

/-- Counterexample for C9 as stated: for query `aa` and name `a` the code
scores `1/2` (one name character, both strings' longer length 2), while the
claimed formula — count of query characters present in the name — yields
`2/2 = 1`. -/
theorem score_direction_counterexample :
    calculateSimilarityScore "aa" "a" none = 1/2 ∧
    nameScoreClaimed "aa" "a" = 1 ∧
    calculateSimilarityScore "aa" "a" none ≠ nameScoreClaimed "aa" "a" := by
  have hinf : infixOf (lowerL "aa") (lowerL "a") = false := rfl
  have hl1 : (lowerL "a").length = 1 := rfl
  have hl2 : (lowerL "aa").length = 2 := rfl
  have h1 : calculateSimilarityScore "aa" "a" none = 1/2 := by
    have hcount : ((lowerL "a").filter (fun c => (lowerL "aa").contains c)).length = 1 := rfl
    simp only [calculateSimilarityScore, nameOverlapScore, Option.isSome_none, Bool.and_false,
      if_false, hinf, hcount, hl1, hl2]
    norm_num
  have h2 : nameScoreClaimed "aa" "a" = 1 := by
    have hcount : ((lowerL "aa").filter (fun c => (lowerL "a").contains c)).length = 2 := rfl
    simp only [nameScoreClaimed, hinf, hcount, hl1, hl2, if_false]
    norm_num
  refine ⟨h1, h2, ?_⟩
  rw [h1, h2]
  norm_num

end WasmExplorer
